import Mathlib

/-!
Verification of the gept template expander (src/gept.c).

The expansion core of gept is one `main` loop in `src/gept.c`: it reads the
whole template into memory, walks it line by line, copies ordinary lines to
an output string builder, and dispatches lines whose first non-whitespace
character is `@` to the directive handlers (`@sizeof`, `@embed`, `@include`,
`@bash`/`@perl`/`@python`). This file gives a shallow embedding of that loop
over byte lists and proves or refutes the frozen claims about it.

Modelling conventions:
* A byte sequence is a `List Nat` (`Bytes`); newline is 10, space 32, `@` 64.
* The `hgl_string.h` helpers (`hgl_sv_lchop_until`, `hgl_sv_ltrim`,
  `hgl_sv_starts_with`, `hgl_sv_lchop_u64`, `hgl_sb_rchop`, ...) are not part
  of src/, so they are modelled from the words of the spec (line scanner,
  token stream, trailing-delimiter removal); each carries a doc comment.
* The file system, the scratch buffer and the child interpreters are
  explicit parameters (`Env`): a file is its byte contents plus permission
  bits, a child process is an oracle from the script body to an exit status
  and captured standard output. POSIX `open` with `O_RDWR` succeeds exactly
  on files the process may both read and write.
* Fatal `GEPT_ASSERT` exits are `Except.error` values carrying the state of
  the output accumulator at the exit point.
-/

namespace Gept

/-- A byte sequence (file contents, template text, output). -/
abbrev Bytes := List Nat

/-- The 128 MiB global scratch buffer, as a map from index to byte. -/
abbrev Scratch := Nat → Nat

/-- Bytes of a string literal, for writing concrete templates. -/
def str (s : String) : Bytes := s.toList.map Char.toNat

/-- SCRATCH_BUFFER_SIZE in src/gept.c: 128*1024*1024. -/
def scratchBufferSize : Nat := 128 * 1024 * 1024

/-- The capture bound of the single `read` call on the output pipe
(`sizeof(scratch_buf) - 1`). -/
def readBound : Nat := scratchBufferSize - 1

/-- Modelled from the spec: the whitespace bytes that the line scanner
strips (ASCII space and control whitespace, as C `isspace`). -/
def isSpaceByte (b : Nat) : Bool :=
  b == 32 || b == 9 || b == 10 || b == 11 || b == 12 || b == 13

/-- Modelled from the spec: `hgl_sv_ltrim`, stripping leading whitespace
from a line view. -/
def ltrim : Bytes → Bytes
  | [] => []
  | b :: bs => if isSpaceByte b then ltrim bs else b :: bs

/-- Modelled from the spec: `hgl_sv_lchop_until`, splitting a view at the
first occurrence of a delimiter byte. The delimiter is consumed; when it is
absent the whole view is chopped and the remainder is empty. -/
def lchopUntil (d : Nat) : Bytes → Bytes × Bytes
  | [] => ([], [])
  | b :: bs =>
    if b = d then ([], bs)
    else
      let r := lchopUntil d bs
      (b :: r.1, r.2)

/-- Modelled from the spec: the digit-consuming loop of `hgl_sv_lchop_u64`,
folding leading ASCII decimal digits into an accumulator. -/
def lchopU64Go (acc : Nat) : Bytes → Nat × Bytes
  | [] => (acc, [])
  | b :: bs =>
    if 48 ≤ b ∧ b ≤ 57 then lchopU64Go (acc * 10 + (b - 48)) bs
    else (acc, b :: bs)

/-- Modelled from the spec: `hgl_sv_lchop_u64`, parsing a leading decimal
number from the token stream. -/
def lchopU64 (s : Bytes) : Nat × Bytes := lchopU64Go 0 s

/-- Decimal digits of `n`, most significant first, with explicit fuel
(`n + 1` suffices). -/
def decDigits : Nat → Nat → Bytes
  | 0, _ => []
  | fuel + 1, n =>
    if n < 10 then [48 + n]
    else decDigits fuel (n / 10) ++ [48 + n % 10]

/-- The decimal rendering of `n`, as `printf` `%zu` produces it. -/
def decimalBytes (n : Nat) : Bytes := decDigits (n + 1) n

/-- The fatal errors of the run (`GEPT_ASSERT` / `GEPT_ASSERT_LINE` exits),
each carrying the offending line or directive as the diagnostic does.
`scratchOverrun` is not an exit of the source: it is the model marker for
the regime in which the `@embed` handler reads or writes the 128 MiB
`scratch_buf` out of bounds (the `fread` at src/gept.c line 323 and the row
loop have no capacity check), where the behavior of the C program is
undefined; the spec (section 3) makes content beyond the Scratch Region
capacity a hard error. -/
inductive GeptError where
  | pathTooLong (line : Bytes)
  | fileAccess (line : Bytes)
  | malformedDirective (line : Bytes)
  | unterminatedBlock (directive : Bytes)
  | subprocess (code : Nat)
  | scratchOverrun (line : Bytes)
  deriving DecidableEq

/-- A file of the modelled file system: its bytes and its permission bits
for the running process. -/
structure FileInfo where
  bytes : Bytes
  readable : Bool
  writable : Bool
  deriving DecidableEq

/-- The run configuration consumed from the CLI layer: the `--embed-fmt`
per-byte formatter and the `--embed-delim` delimiter. -/
structure Config where
  embedFmt : Nat → Bytes
  embedDelim : Bytes

/-- The external world of one run: the file system, the child-interpreter
oracle (directive token and script body to exit status and captured
standard output), and the stale contents of the scratch buffer at startup. -/
structure Env where
  fs : Bytes → Option FileInfo
  subproc : Bytes → Bytes → Nat × Bytes
  scratch0 : Scratch

/-- Overlay `data` on the front of the scratch buffer (a `memcpy` /
`fread` / `read` into `scratch_buf`). -/
def scratchWrite (s : Scratch) (data : Bytes) : Scratch :=
  fun i => data.getD i (s i)

/-- Write a NUL-terminated path into the scratch buffer, as the handlers
do before calling `open`/`fopen`. -/
def scratchWritePath (s : Scratch) (path : Bytes) : Scratch :=
  fun i =>
    if i < path.length then path.getD i 0
    else if i = path.length then 0
    else s i

/-- Result of one driver step: the new accumulator, the remaining input and
the new scratch contents; or a fatal error with the accumulator at exit. -/
abbrev StepResult := Except (GeptError × Bytes) (Bytes × Bytes × Scratch)

/-- The `@sizeof` handler (src/gept.c lines 262-289): chop the path token,
open the file with `open(path, O_RDWR)`, and append four spaces, the
decimal `st_size`, one space, the rest of the line and a newline. -/
def handleSizeof (env : Env) (line args rest acc : Bytes) (scratch : Scratch) :
    StepResult :=
  let pr := lchopUntil 32 args
  let path := pr.1
  let after := pr.2
  if path.length < 4096 then
    let scratch1 := scratchWritePath scratch path
    match env.fs path with
    | some fi =>
      if fi.readable && fi.writable then
        .ok (acc ++ str "    " ++ decimalBytes fi.bytes.length ++ [32] ++ after ++ [10],
             rest, scratch1)
      else .error (.fileAccess line, acc)
    | none => .error (.fileAccess line, acc)
  else .error (.pathTooLong line, acc)

/-- The value of the `(int64_t)` cast applied to a u64 (src/gept.c line
304): reduce modulo two to the sixty-fourth, then values at or above two to
the sixty-third wrap negative. -/
def toInt64 (n : Nat) : Int :=
  if n % 2 ^ 64 < 2 ^ 63 then ((n % 2 ^ 64 : Nat) : Int)
  else ((n % 2 ^ 64 : Nat) : Int) - 2 ^ 64

/-- The int64 `limit` of the embed handler (src/gept.c lines 301-304): the
cast parsed value when `limit(` was present, else `SCRATCH_BUFFER_SIZE`. -/
def embedLimit (hasLimit : Bool) (v : Nat) : Int :=
  if hasLimit then toInt64 v else (scratchBufferSize : Int)

/-- The int64 `file_size` of the embed handler (src/gept.c lines 313-320):
the `ftell` report is the byte length for a regular file, or -1 when it
does not fit an int64; a non-positive report selects `limit`, else the
smaller of the report and `limit`. -/
def embedFileSize (len : Nat) (limit : Int) : Int :=
  let fileSize0 : Int := if len < 2 ^ 63 then (len : Int) else -1
  if fileSize0 ≤ 0 then limit
  else if fileSize0 < limit then fileSize0 else limit

/-- One 20-byte output row of `@embed`: four spaces of indent, then for
each in-range byte its formatted form followed by the delimiter, then a
newline. `fileSize` is the int64 `file_size` of the source; the inner loop
condition `row*20 + i < file_size` is int64 comparison. -/
def embedRow (fmt : Nat → Bytes) (delim : Bytes) (byteAt : Nat → Nat)
    (fileSize : Int) (row : Nat) : Bytes :=
  str "    " ++
    (((List.range 20).filter (fun i => decide (((row * 20 + i : Nat) : Int) < fileSize))).map
      (fun i => fmt (byteAt (row * 20 + i)) ++ delim)).flatten ++ [10]

/-- The rows the `@embed` loop emits: `n_rows = file_size / 20 + 1` in
truncating int64 division, and no iteration at all when that is not
positive (so a `file_size` of -20 or less emits nothing). -/
def embedRowsBody (fmt : Nat → Bytes) (delim : Bytes) (byteAt : Nat → Nat)
    (fileSize : Int) : Bytes :=
  ((List.range (fileSize.tdiv 20 + 1).toNat).map
    (embedRow fmt delim byteAt fileSize)).flatten

/-- Modelled from the spec: `hgl_sb_rchop`, removing the last `n` bytes of
the builder (the removal of the final trailing delimiter in 4.4 of the
spec). -/
def rchop (s : Bytes) (n : Nat) : Bytes := s.take (s.length - n)

/-- The `@embed` handler (src/gept.c lines 292-345): chop the path, parse an
optional `limit(N)` whose value goes through an `(int64_t)` cast (line 304),
`fopen` the file, compute the int64 `file_size` (`limit` when the reported
size is not positive, else the smaller of size and limit; `ftell` reports
-1 when the size does not fit an int64), `fread` into scratch, emit the
rows, then chop the final newline plus delimiter and append a newline.
The source has no capacity check on the `fread` at line 323 or on the row
loop at lines 330-335: whenever the bytes read or the formatted indices
would leave the 128 MiB `scratch_buf`, the C program overruns a static
buffer and its behavior is undefined; the model stops there with the
designated `scratchOverrun` error (the spec, section 3, makes content
beyond the Scratch Region capacity a hard error), so no theorem about
defined behavior covers that regime. -/
def handleEmbed (cfg : Config) (env : Env) (line args rest acc : Bytes)
    (scratch : Scratch) : StepResult :=
  let pr := lchopUntil 32 args
  let path := pr.1
  if path.length < 4096 then
    let scratch1 := scratchWritePath scratch path
    let tokens1 := ltrim pr.2
    let hasLimit := (str "limit(").isPrefixOf tokens1
    let nr := lchopU64 (tokens1.drop 6)
    let limit : Int := embedLimit hasLimit nr.1
    if hasLimit && !((41 :: []).isPrefixOf nr.2) then
      .error (.malformedDirective line, acc)
    else
      match env.fs path with
      | none => .error (.fileAccess line, acc)
      | some fi =>
        if fi.readable then
          let fileSize : Int := embedFileSize fi.bytes.length limit
          let nRead : Nat := min fi.bytes.length (fileSize % (2 ^ 64 : Int)).toNat
          if (scratchBufferSize : Int) < fileSize ∨ scratchBufferSize < nRead then
            .error (.scratchOverrun line, acc)
          else
            let scratch2 := scratchWrite scratch1 (fi.bytes.take nRead)
            let body := embedRowsBody cfg.embedFmt cfg.embedDelim scratch2 fileSize
            .ok (rchop (acc ++ body) (1 + cfg.embedDelim.length) ++ [10], rest, scratch2)
        else .error (.fileAccess line, acc)
  else .error (.pathTooLong line, acc)

/-- The `@include` handler (src/gept.c lines 348-358): chop the path and
append the file with `hgl_sb_append_file`. The returned error code of that
call is discarded by the source, so an unreadable file appends nothing and
the run continues. -/
def handleInclude (env : Env) (line args rest acc : Bytes) (scratch : Scratch) :
    StepResult :=
  let pr := lchopUntil 32 args
  let path := pr.1
  if path.length < 4096 then
    let scratch1 := scratchWritePath scratch path
    match env.fs path with
    | some fi =>
      if fi.readable then .ok (acc ++ fi.bytes, rest, scratch1)
      else .ok (acc, rest, scratch1)
    | none => .ok (acc, rest, scratch1)
  else .error (.pathTooLong line, acc)

/-- The body-collecting loop of a block directive (src/gept.c lines
366-376): pull lines until one whose left-trimmed form starts with `@end`
(that line is consumed and excluded), or until the input is exhausted.
Returns the collected body and the remaining input; the fuel is called with
the input length, which each iteration strictly decreases. -/
def collect : Nat → Bytes → Bytes → Bytes × Bytes
  | 0, input, body => (body, input)
  | fuel + 1, input, body =>
    if input = [] then (body, input)
    else
      let lr := lchopUntil 10 input
      let tokens := ltrim lr.1
      if (str "@end").isPrefixOf tokens then (body, lr.2)
      else collect fuel lr.2 (body ++ lr.1 ++ [10])

/-- Truncation of the captured child output by the single bounded `read`
call (extensionally `List.take readBound`). -/
def readCapture (out : Bytes) : Bytes :=
  if out.length ≤ readBound then out else out.take readBound

/-- The block-directive handler (src/gept.c lines 361-471): collect the
body, fail with the unterminated-block assert when the remaining input is
empty (`GEPT_ASSERT(input.length > 0, ...)`), run the child, fail when its
exit status is non-zero, else append the captured output (which the `read`
call also wrote into the scratch buffer). -/
def handleBlock (env : Env) (directive input acc : Bytes) (scratch : Scratch) :
    StepResult :=
  let cr := collect input.length input []
  let body := cr.1
  let rest := cr.2
  if rest = [] then .error (.unterminatedBlock directive, acc)
  else
    let r := env.subproc directive body
    if r.1 ≠ 0 then .error (.subprocess r.1, acc)
    else
      let captured := readCapture r.2
      .ok (acc ++ captured, rest, scratchWrite scratch captured)

/-- One iteration of the main loop of src/gept.c (lines 246-472): pull the
next line, copy it through when its trimmed form does not start with `@`,
else chop the directive token and dispatch. The four directive tests are
written as a chain since the token equals at most one of them; a line whose
directive token matches none of them falls through the loop body and
contributes nothing. -/
def stepLine (cfg : Config) (env : Env) (input acc : Bytes) (scratch : Scratch) :
    StepResult :=
  let lr := lchopUntil 10 input
  let line := lr.1
  let rest := lr.2
  let tokens := ltrim line
  if (str "@").isPrefixOf tokens then
    let dr := lchopUntil 32 tokens
    let directive := dr.1
    let args := dr.2
    if directive = str "@sizeof" then handleSizeof env line args rest acc scratch
    else if directive = str "@embed" then handleEmbed cfg env line args rest acc scratch
    else if directive = str "@include" then handleInclude env line args rest acc scratch
    else if directive = str "@bash" ∨ directive = str "@perl" ∨ directive = str "@python" then
      handleBlock env directive rest acc scratch
    else .ok (acc, rest, scratch)
  else .ok (acc ++ line ++ [10], rest, scratch)

/-- The main loop (`while (input.length > 0)`), with fuel: each step consumes
at least one input byte, so fuel `input.length` is exact. -/
def runLoop (cfg : Config) (env : Env) :
    Nat → Bytes → Bytes → Scratch → Except (GeptError × Bytes) Bytes
  | 0, _, acc, _ => .ok acc
  | fuel + 1, input, acc, scratch =>
    if input = [] then .ok acc
    else
      match stepLine cfg env input acc scratch with
      | .error e => .error e
      | .ok (acc2, rest, scratch2) => runLoop cfg env fuel rest acc2 scratch2

/-- The whole expansion: the final contents of the output accumulator, or
the fatal error (with the accumulator at the exit point). -/
def geptAcc (cfg : Config) (env : Env) (template : Bytes) :
    Except (GeptError × Bytes) Bytes :=
  runLoop cfg env template.length template [] env.scratch0

/-- The bytes the run writes to standard output on success: the accumulator
followed by the single newline of the final `printf` (src/gept.c line 475). -/
def geptEmit (cfg : Config) (env : Env) (template : Bytes) :
    Except (GeptError × Bytes) Bytes :=
  (geptAcc cfg env template).map (fun out => out ++ [10])

/-- Rendering of an embedded byte list as the words of the spec describe it
(4.4 and section 8): the bytes in order, wrapped 20 per row, each row
indented by four spaces and ended by a newline, every byte followed by the
delimiter, and the final trailing delimiter (with the newline of the last
row) removed before the final newline; a zero-byte input keeps the structure
of one empty row. -/
def embedSpecRender (fmt : Nat → Bytes) (delim : Bytes) (bs : Bytes) : Bytes :=
  if bs.length = 0 then str "    " ++ [10]
  else
    rchop
      (((List.range ((bs.length + 19) / 20)).map
        (embedRow fmt delim (fun j => bs.getD j 0) (bs.length : Int))).flatten)
      (1 + delim.length) ++ [10]

/-- A fixed configuration for concrete runs: decimal byte formatting and the
default delimiter of two bytes, comma and space. -/
def cfg0 : Config := ⟨fun b => decimalBytes b, str ", "⟩

/-- An empty world: no files, a child oracle that succeeds with empty
output, zeroed scratch. -/
def env0 : Env := ⟨fun _ => none, fun _ _ => (0, []), fun _ => 0⟩

/-- Zeroed scratch buffer. -/
def scr0 : Scratch := fun _ => 0

/-- A child-interpreter oracle that succeeds and echoes the script body,
making the captured body observable in the output. -/
def envEcho : Env := ⟨fun _ => none, fun _ body => (0, body), fun _ => 0⟩

/-- World with one empty readable file `f` and stale scratch bytes 7. -/
def envC2 : Env :=
  ⟨fun p => if p = str "f" then some ⟨[], true, true⟩ else none,
   fun _ _ => (0, []), fun _ => 7⟩

/-- World with one readable file `f` holding the single byte `X`. -/
def envX : Env :=
  ⟨fun p => if p = str "f" then some ⟨str "X", true, true⟩ else none,
   fun _ _ => (0, []), fun _ => 0⟩

/-- World with one readable two-byte file `f` holding `AB`. -/
def envAB : Env :=
  ⟨fun p => if p = str "f" then some ⟨str "AB", true, true⟩ else none,
   fun _ _ => (0, []), fun _ => 0⟩

/-- Configuration with a six-byte embed delimiter. -/
def cfgBig : Config := ⟨fun b => decimalBytes b, str "ABCDEF"⟩

/-- World with one readable one-byte file `f`. -/
def envOne : Env :=
  ⟨fun p => if p = str "f" then some ⟨[1], true, true⟩ else none,
   fun _ _ => (0, []), fun _ => 0⟩

/-- World whose child interpreter prints and then fails with exit status 3. -/
def envFail : Env := ⟨fun _ => none, fun _ _ => (3, str "oops"), fun _ => 0⟩

/-- World with one file `f` that is readable but not writable. -/
def envRO : Env :=
  ⟨fun p => if p = str "f" then some ⟨str "AB", true, false⟩ else none,
   fun _ _ => (0, []), fun _ => 0⟩

/-- World with one readable three-byte file `f`. -/
def envW2 : Env :=
  ⟨fun p => if p = str "f" then some ⟨[5, 6, 7], true, true⟩ else none,
   fun _ _ => (0, []), fun _ => 0⟩

/-- Projection of a driver step to the observable accumulator and remaining
input, dropping the scratch function (which has no decidable equality). -/
def stepOut (cfg : Config) (env : Env) (input acc : Bytes) (scratch : Scratch) :
    Except (GeptError × Bytes) (Bytes × Bytes) :=
  (stepLine cfg env input acc scratch).map (fun r => (r.1, r.2.1))

/-- The next line, if it is an `@embed` directive carrying a `limit(`
attribute, parses to a u64 value below two to the sixty-third, so the
`(int64_t)` cast of the limit (src/gept.c line 304) is nonnegative. The
scan mirrors `stepLine` and `handleEmbed` token for token; any other line
is benign. -/
def stepLimitBenign (input : Bytes) : Bool :=
  let lr := lchopUntil 10 input
  let tokens := ltrim lr.1
  if (str "@").isPrefixOf tokens then
    let dr := lchopUntil 32 tokens
    if dr.1 = str "@embed" then
      let pr := lchopUntil 32 dr.2
      let tokens1 := ltrim pr.2
      (!((str "limit(").isPrefixOf tokens1) ||
        decide ((lchopU64 (tokens1.drop 6)).1 % 2 ^ 64 < 2 ^ 63))
    else true
  else true

/-! ## Lemmas about the scanner helpers -/

/-- Chopping up to a delimiter that does not occur consumes the whole view. -/
theorem lchopUntil_not_mem {d : Nat} : ∀ {s : Bytes}, d ∉ s → lchopUntil d s = (s, [])
  | [], _ => rfl
  | b :: bs, h => by
    have hbd : ¬ b = d := fun he => h (he ▸ List.mem_cons_self b bs)
    have ih := lchopUntil_not_mem (s := bs) (fun hm => h (List.mem_cons_of_mem b hm))
    simp [lchopUntil, hbd, ih]

/-- Chopping at the first delimiter occurrence splits the view there. -/
theorem lchopUntil_append {d : Nat} : ∀ {a : Bytes} (b : Bytes), d ∉ a →
    lchopUntil d (a ++ d :: b) = (a, b)
  | [], b, _ => by simp [lchopUntil]
  | x :: xs, b, h => by
    have hxd : ¬ x = d := fun he => h (he ▸ List.mem_cons_self x xs)
    have ih := lchopUntil_append (a := xs) b (fun hm => h (List.mem_cons_of_mem x hm))
    simp [lchopUntil, hxd, ih]

/-- Left-trimming a view whose head is not whitespace is the identity. -/
theorem ltrim_cons (b : Nat) (s : Bytes) (h : isSpaceByte b = false) :
    ltrim (b :: s) = b :: s := by
  simp [ltrim, h]

/-- The loop on empty input returns the accumulator, whatever the fuel. -/
theorem runLoop_nil (cfg : Config) (env : Env) (fuel : Nat) (acc : Bytes)
    (scratch : Scratch) : runLoop cfg env fuel [] acc scratch = .ok acc := by
  cases fuel <;> simp [runLoop]

/-- Unfolding of the loop at any positive fuel. -/
theorem runLoop_pos (cfg : Config) (env : Env) {fuel : Nat} (hf : 0 < fuel)
    (input acc : Bytes) (scratch : Scratch) :
    runLoop cfg env fuel input acc scratch =
      if input = [] then .ok acc
      else
        match stepLine cfg env input acc scratch with
        | .error e => .error e
        | .ok (acc2, rest, scratch2) => runLoop cfg env (fuel - 1) rest acc2 scratch2 := by
  obtain ⟨m, rfl⟩ : ∃ m, fuel = m + 1 := ⟨fuel - 1, by omega⟩
  simp [runLoop]

/-! ## Lemmas about decimal rendering and parsing -/

/-- Every byte that `decDigits` emits is an ASCII decimal digit. -/
theorem decDigits_bounds : ∀ (fuel n b : Nat), b ∈ decDigits fuel n → 48 ≤ b ∧ b ≤ 57 := by
  intro fuel
  induction fuel with
  | zero => intro n b hb; simp [decDigits] at hb
  | succ f ih =>
    intro n b hb
    by_cases h : n < 10
    · simp [decDigits, h] at hb; omega
    · simp [decDigits, h] at hb
      rcases hb with hb | hb
      · exact ih _ _ hb
      · omega

/-- A decimal rendering contains no newline byte. -/
theorem newline_not_mem_decimalBytes (n : Nat) : 10 ∉ decimalBytes n := fun h => by
  have := decDigits_bounds _ _ _ h; omega

/-- A decimal rendering contains no space byte. -/
theorem space_not_mem_decimalBytes (n : Nat) : 32 ∉ decimalBytes n := fun h => by
  have := decDigits_bounds _ _ _ h; omega

/-- Every natural is below ten to its successor. -/
theorem lt_ten_pow_succ (n : Nat) : n < 10 ^ (n + 1) := by
  calc n < 2 ^ n * 10 := by nlinarith [Nat.lt_two_pow n]
    _ ≤ 10 ^ n * 10 := by
        have := Nat.pow_le_pow_left (show 2 ≤ 10 by norm_num) n
        nlinarith
    _ = 10 ^ (n + 1) := by ring

/-- The digit parser folds a printed number back, continuing with whatever
follows the digits. -/
theorem lchopU64Go_decDigits : ∀ (fuel n acc : Nat) (r : Bytes), n < 10 ^ fuel →
    lchopU64Go acc (decDigits fuel n ++ r) =
      lchopU64Go (acc * 10 ^ (decDigits fuel n).length + n) r := by
  intro fuel
  induction fuel with
  | zero =>
    intro n acc r h
    have hn : n = 0 := by simpa using h
    subst hn
    simp [decDigits]
  | succ f ih =>
    intro n acc r h
    by_cases hn : n < 10
    · rw [show decDigits (f + 1) n = [48 + n] from by simp [decDigits, hn]]
      show lchopU64Go acc ((48 + n) :: r) = _
      simp only [lchopU64Go]
      rw [if_pos (by omega)]
      congr 1
      simp only [List.length_singleton, pow_one]
      omega
    · rw [show decDigits (f + 1) n = decDigits f (n / 10) ++ [48 + n % 10] from by
        simp [decDigits, hn]]
      rw [List.append_assoc, List.singleton_append]
      rw [ih (n / 10) acc ((48 + n % 10) :: r) (by
        rw [Nat.div_lt_iff_lt_mul (by norm_num)]
        calc n < 10 ^ (f + 1) := h
          _ = 10 ^ f * 10 := by ring)]
      show lchopU64Go _ ((48 + n % 10) :: r) = _
      simp only [lchopU64Go]
      rw [if_pos (by omega)]
      congr 1
      simp [pow_succ]
      have := Nat.div_add_mod n 10
      ring_nf
      omega

/-- Parsing the decimal rendering of `N` followed by a closing parenthesis
yields `N` with the parenthesis unconsumed. -/
theorem lchopU64_decimalBytes (N : Nat) (t : Bytes) :
    lchopU64 (decimalBytes N ++ 41 :: t) = (N, 41 :: t) := by
  unfold lchopU64 decimalBytes
  rw [lchopU64Go_decDigits (N + 1) N 0 (41 :: t) (lt_ten_pow_succ N)]
  simp only [lchopU64Go, Nat.zero_mul, Nat.zero_add]
  rw [if_neg (by omega)]

/-! ## Lemmas about the embed rendering -/

/-- The four-space indent as bytes. -/
theorem str_indent : str "    " = [32, 32, 32, 32] := by decide

/-- Every embed row is at least five bytes: the indent and the newline. -/
theorem embedRow_length_ge (fmt : Nat → Bytes) (delim : Bytes) (byteAt : Nat → Nat)
    (fileSize : Int) (row : Nat) : 5 ≤ (embedRow fmt delim byteAt fileSize row).length := by
  simp [embedRow, str_indent]

/-- For a nonnegative `file_size` the embed body is at least five bytes:
`n_rows` is then positive, so at least one indented, newline-ended row is
emitted (for `file_size` at most -20 the row count is not positive and the
body is empty). -/
theorem embedRowsBody_length_ge (fmt : Nat → Bytes) (delim : Bytes) (byteAt : Nat → Nat)
    {fileSize : Int} (hfs : 0 ≤ fileSize) :
    5 ≤ (embedRowsBody fmt delim byteAt fileSize).length := by
  unfold embedRowsBody
  obtain ⟨m, hm⟩ : ∃ m, (fileSize.tdiv 20 + 1).toNat = m + 1 := by
    have h1 : 0 ≤ fileSize.tdiv 20 := Int.tdiv_nonneg hfs (by norm_num)
    exact ⟨(fileSize.tdiv 20).toNat, by omega⟩
  rw [hm, List.range_succ_eq_map]
  simp only [List.map_cons, List.flatten_cons, List.length_append]
  have := embedRow_length_ge fmt delim byteAt fileSize 0
  omega

/-- A row only reads bytes below `fileSize`, so agreeing byte sources give
the same row. -/
theorem embedRow_congr {fmt : Nat → Bytes} {delim : Bytes} {f g : Nat → Nat}
    {fileSize : Int} {row : Nat} (h : ∀ j : Nat, (j : Int) < fileSize → f j = g j) :
    embedRow fmt delim f fileSize row = embedRow fmt delim g fileSize row := by
  unfold embedRow
  congr 2
  apply congrArg
  apply List.map_congr_left
  intro i hi
  have hm := List.mem_filter.mp hi
  have hlt : ((row * 20 + i : Nat) : Int) < fileSize := by simpa using hm.2
  rw [h _ hlt]

/-- The whole embed body only reads bytes below `fileSize`. -/
theorem embedRowsBody_congr {fmt : Nat → Bytes} {delim : Bytes} {f g : Nat → Nat}
    {fileSize : Int} (h : ∀ j : Nat, (j : Int) < fileSize → f j = g j) :
    embedRowsBody fmt delim f fileSize = embedRowsBody fmt delim g fileSize := by
  unfold embedRowsBody
  apply congrArg
  apply List.map_congr_left
  intro row _
  exact embedRow_congr h

/-- Chopping at most the second summand of an append leaves the first
summand untouched. -/
theorem rchop_append (a b : Bytes) {n : Nat} (h : n ≤ b.length) :
    rchop (a ++ b) n = a ++ rchop b n := by
  unfold rchop
  rw [List.length_append, List.take_append_eq_append_take]
  have h1 : a.length + b.length - n = a.length + (b.length - n) := by omega
  rw [h1, List.take_of_length_le (by omega), Nat.add_sub_cancel_left]

/-- Prepending bytes to the builder before an rchop that stays inside the
appended part preserves them as a prefix. -/
theorem prefix_rchop_append (acc B : Bytes) (n : Nat) (h : n ≤ B.length) :
    acc <+: rchop (acc ++ B) n ++ [10] := by
  rw [rchop_append _ _ h]
  simp [List.append_assoc]

/-- A successful `@sizeof` step only appends to the accumulator. -/
theorem handleSizeof_prefix {env : Env} {line args rest acc : Bytes} {scratch : Scratch}
    {a2 r2 : Bytes} {s2 : Scratch}
    (h : handleSizeof env line args rest acc scratch = .ok (a2, r2, s2)) : acc <+: a2 := by
  simp only [handleSizeof] at h
  split at h
  · split at h
    · split at h
      · simp only [Except.ok.injEq, Prod.mk.injEq] at h
        obtain ⟨rfl, -, -⟩ := h
        simp [List.append_assoc]
      · exact absurd h (by simp)
    · exact absurd h (by simp)
  · exact absurd h (by simp)

/-- A successful `@include` step only appends to the accumulator. -/
theorem handleInclude_prefix {env : Env} {line args rest acc : Bytes} {scratch : Scratch}
    {a2 r2 : Bytes} {s2 : Scratch}
    (h : handleInclude env line args rest acc scratch = .ok (a2, r2, s2)) : acc <+: a2 := by
  simp only [handleInclude] at h
  split at h
  · split at h
    · split at h
      · simp only [Except.ok.injEq, Prod.mk.injEq] at h
        obtain ⟨rfl, -, -⟩ := h
        exact List.prefix_append acc _
      · simp only [Except.ok.injEq, Prod.mk.injEq] at h
        obtain ⟨rfl, -, -⟩ := h
        exact List.prefix_rfl
    · simp only [Except.ok.injEq, Prod.mk.injEq] at h
      obtain ⟨rfl, -, -⟩ := h
      exact List.prefix_rfl
  · exact absurd h (by simp)

/-- A successful block step only appends to the accumulator. -/
theorem handleBlock_prefix {env : Env} {directive input acc : Bytes} {scratch : Scratch}
    {a2 r2 : Bytes} {s2 : Scratch}
    (h : handleBlock env directive input acc scratch = .ok (a2, r2, s2)) : acc <+: a2 := by
  simp only [handleBlock] at h
  split at h
  · exact absurd h (by simp)
  · split at h
    · exact absurd h (by simp)
    · simp only [Except.ok.injEq, Prod.mk.injEq] at h
      obtain ⟨rfl, -, -⟩ := h
      exact List.prefix_append acc _

/-- The int64 cast of a u64 below two to the sixty-third is that value,
hence nonnegative. -/
theorem toInt64_nonneg {n : Nat} (h : n % 2 ^ 64 < 2 ^ 63) : 0 ≤ toInt64 n := by
  unfold toInt64
  rw [if_pos h]
  exact Int.natCast_nonneg _

/-- The limit is nonnegative when any parsed value stays below two to the
sixty-third. -/
theorem embedLimit_nonneg {hasLimit : Bool} {v : Nat}
    (h : hasLimit = true → v % 2 ^ 64 < 2 ^ 63) : 0 ≤ embedLimit hasLimit v := by
  unfold embedLimit
  split
  · rename_i hl; exact toInt64_nonneg (h hl)
  · positivity

/-- The `file_size` of the embed handler is nonnegative when the limit is. -/
theorem embedFileSize_nonneg (len : Nat) {limit : Int} (h : 0 ≤ limit) :
    0 ≤ embedFileSize len limit := by
  unfold embedFileSize
  dsimp only
  generalize (if len < 2 ^ 63 then (len : Int) else -1) = a
  split
  · exact h
  · split <;> omega

/-- With a delimiter of at most four bytes and a limit whose int64 cast is
nonnegative, a successful `@embed` step only appends: the chop of newline
plus delimiter stays inside the five or more bytes of the emitted rows. -/
theorem handleEmbed_prefix {cfg : Config} {env : Env} {line args rest acc : Bytes}
    {scratch : Scratch} {a2 r2 : Bytes} {s2 : Scratch}
    (hdelim : cfg.embedDelim.length ≤ 4)
    (hben : (!((str "limit(").isPrefixOf (ltrim (lchopUntil 32 args).2)) ||
      decide ((lchopU64 ((ltrim (lchopUntil 32 args).2).drop 6)).1 % 2 ^ 64 < 2 ^ 63)) = true)
    (h : handleEmbed cfg env line args rest acc scratch = .ok (a2, r2, s2)) : acc <+: a2 := by
  have hlim : 0 ≤ embedLimit ((str "limit(").isPrefixOf (ltrim (lchopUntil 32 args).2))
      (lchopU64 ((ltrim (lchopUntil 32 args).2).drop 6)).1 := by
    apply embedLimit_nonneg
    intro hl
    rw [hl] at hben
    simpa using hben
  simp only [handleEmbed] at h
  split at h
  · split at h
    · exact absurd h (by simp)
    · split at h
      · exact absurd h (by simp)
      · split at h
        · split at h
          · exact absurd h (by simp)
          · simp only [Except.ok.injEq, Prod.mk.injEq] at h
            obtain ⟨rfl, -, -⟩ := h
            exact prefix_rchop_append acc _ _
              (le_trans (by omega) (embedRowsBody_length_ge _ _ _
                (embedFileSize_nonneg _ hlim)))
        · exact absurd h (by simp)
  · exact absurd h (by simp)

/-! ## The claims -/

/-- C1, counterexample: the single-line template `@unknown foo` expands to
an empty output, not to the line itself: the claimed pass-through of
marker lines with unrecognized keywords does not happen. -/
theorem unknown_directive_not_passed_through_cex :
    geptAcc cfg0 env0 (str "@unknown foo") = .ok [] ∧
    ([] : Bytes) ≠ str "@unknown foo" ++ [10] :=
  ⟨rfl, by decide⟩

/-- C1 (amended): a line whose first non-whitespace byte is the marker but
whose directive token is none of the six recognized keywords is consumed
and contributes nothing: the loop continues on the remaining input with the
accumulator and the scratch unchanged, so the line is silently dropped
rather than passed through. -/
theorem unknown_directive_dropped (cfg : Config) (env : Env) (fuel : Nat)
    (l rest acc : Bytes) (scratch : Scratch)
    (h10 : 10 ∉ l)
    (hat : (str "@").isPrefixOf (ltrim l) = true)
    (hkw : (lchopUntil 32 (ltrim l)).1 ∉ [str "@sizeof", str "@embed",
      str "@include", str "@bash", str "@perl", str "@python"]) :
    runLoop cfg env (fuel + 1) (l ++ 10 :: rest) acc scratch =
      runLoop cfg env fuel rest acc scratch := by
  simp only [List.mem_cons, List.mem_singleton, not_or] at hkw
  obtain ⟨h1, h2, h3, h4, h5, h6, -⟩ := hkw
  rw [runLoop_pos cfg env (Nat.succ_pos fuel), if_neg (by simp)]
  have hstep : stepLine cfg env (l ++ 10 :: rest) acc scratch = .ok (acc, rest, scratch) := by
    simp only [stepLine, lchopUntil_append rest h10]
    rw [if_pos hat, if_neg h1, if_neg h2, if_neg h3,
      if_neg (by rintro (h | h | h) <;> [exact h4 h; exact h5 h; exact h6 h])]
  rw [hstep]
  simp

/-- C1, witness of the amended claim at the dropped line `@unknown foo`. -/
theorem unknown_directive_dropped_witness :
    runLoop cfg0 env0 1 (str "@unknown foo" ++ 10 :: []) [] scr0 =
      runLoop cfg0 env0 0 [] [] scr0 :=
  unknown_directive_dropped cfg0 env0 0 (str "@unknown foo") [] [] scr0
    (by decide) (by decide) (by decide)

/-- C3 (code behavior at the failing input): in the template
`@bash\n@endless\n@end\nx\n` run with an echoing interpreter, the line
`@endless` already terminates the block because the terminator test is a
prefix match, so the echoed body is empty and the later exact `@end` line
is consumed as an unrecognized directive; the claim instead requires the
body `@endless\n`, which would make the echoed output start with it. The
trimmed line `@endless` is not the exact terminator token. -/
theorem block_terminator_prefix_match :
    geptAcc cfg0 envEcho (str "@bash\n@endless\n@end\nx\n") = .ok (str "x\n") ∧
    str "x\n" ≠ str "@endless\n" ++ str "x\n" ∧
    ltrim (str "@endless") ≠ str "@end" :=
  ⟨rfl, by decide, by decide⟩

/-- C4 (code behavior at the failing input): a block whose `@end`
terminator line is the final line of the template is reported as an
unterminated block, because the assert tests whether input remains instead
of whether the terminator was seen; the same block followed by one more
line succeeds. -/
theorem terminator_as_final_line_error :
    geptAcc cfg0 envEcho (str "@bash\nhi\n@end\n") =
      .error (.unterminatedBlock (str "@bash"), []) ∧
    geptAcc cfg0 envEcho (str "@bash\nhi\n@end\nx\n") = .ok (str "hi\nx\n") :=
  ⟨rfl, rfl⟩

/-- C7 (code behavior at the failing input): expanding `@include missing`
in a world with no files succeeds with an empty accumulator and emits only
the final newline: the failed append of the missing file is ignored and the
run does not raise any `FileAccessError`. -/
theorem include_missing_file_ignored :
    geptAcc cfg0 env0 (str "@include missing") = .ok [] ∧
    geptEmit cfg0 env0 (str "@include missing") = .ok [10] :=
  ⟨rfl, rfl⟩

/-- C5, counterexample: with a file `f` holding the single byte `X`, the
template `@include f` emits `X` followed by a newline: the whole emitted
result is not exactly the contents of the file, one byte is added. -/
theorem include_trailing_newline_cex :
    geptEmit cfg0 envX (str "@include f") = .ok (str "X" ++ [10]) ∧
    str "X" ++ [10] ≠ str "X" :=
  ⟨rfl, by decide⟩

/-- C5 (amended): expanding a template that is exactly the single line
`@include F` puts exactly the bytes of F, unchanged, into the Output
Accumulator; the bytes the run then writes to standard output are those of
F followed by the one newline that the final print of the accumulator
appends. -/
theorem include_yields_file_bytes (cfg : Config) (env : Env) (p : Bytes) (fi : FileInfo)
    (hp10 : 10 ∉ p) (hp32 : 32 ∉ p) (hplen : p.length < 4096)
    (hfs : env.fs p = some fi) (hread : fi.readable = true) :
    geptAcc cfg env (str "@include " ++ p) = .ok fi.bytes ∧
    geptEmit cfg env (str "@include " ++ p) = .ok (fi.bytes ++ [10]) := by
  have h10 : (10 : Nat) ∉ str "@include " ++ p := by
    intro h
    rcases List.mem_append.mp h with h | h
    · revert h; decide
    · exact hp10 h
  have htpl : str "@include " ++ p = 64 :: (str "include " ++ p) := by
    rw [show str "@include " = 64 :: str "include " from by decide, List.cons_append]
  have hltrim : ltrim (str "@include " ++ p) = str "@include " ++ p := by
    rw [htpl]; exact ltrim_cons _ _ (by decide)
  have hpre : (str "@").isPrefixOf (str "@include " ++ p) = true := by
    rw [htpl, show str "@" = [64] from by decide]
    simp [List.isPrefixOf]
  have hchop : lchopUntil 32 (str "@include " ++ p) = (str "@include", p) := by
    rw [show str "@include " = str "@include" ++ [32] from by decide, List.append_assoc,
      List.singleton_append]
    exact lchopUntil_append p (by decide)
  have hstep : stepLine cfg env (str "@include " ++ p) [] env.scratch0 =
      .ok ([] ++ fi.bytes, [], scratchWritePath env.scratch0 p) := by
    simp only [stepLine, lchopUntil_not_mem h10, hltrim, hpre, if_true, hchop]
    rw [if_neg (by decide), if_neg (by decide)]
    simp only [handleInclude, lchopUntil_not_mem hp32]
    rw [if_pos hplen, hfs]
    simp only [hread, if_true]
  have hacc : geptAcc cfg env (str "@include " ++ p) = .ok fi.bytes := by
    unfold geptAcc
    rw [runLoop_pos cfg env (by rw [htpl]; simp), if_neg (by rw [htpl]; simp), hstep]
    simp [runLoop_nil]
  exact ⟨hacc, by unfold geptEmit; rw [hacc]; rfl⟩

/-- C5, witness of the amended claim at a one-byte file. -/
theorem include_yields_file_bytes_witness :
    geptAcc cfg0 envX (str "@include " ++ str "f") = .ok (str "X") ∧
    geptEmit cfg0 envX (str "@include " ++ str "f") = .ok (str "X" ++ [10]) :=
  include_yields_file_bytes cfg0 envX (str "f") ⟨str "X", true, true⟩
    (by decide) (by decide) (by decide) (by decide) rfl

/-- C6, counterexample: with a two-byte file `f`, the template
`@sizeof f x` expands to the line with four spaces before the decimal size,
not to the bare decimal size: something is prepended. -/
theorem sizeof_four_space_cex :
    geptAcc cfg0 envAB (str "@sizeof f x") = .ok (str "    2 x" ++ [10]) ∧
    str "    2 x" ++ [10] ≠ str "2 x" ++ [10] :=
  ⟨rfl, by decide⟩

/-- C6 (amended): expanding the single line `@sizeof F rest` appends four
spaces, then the decimal byte size of F, then a single space, then the
verbatim remainder of the line, then a newline. -/
theorem sizeof_decimal_size_indented (cfg : Config) (env : Env) (p rest2 : Bytes)
    (fi : FileInfo) (hp10 : 10 ∉ p) (hp32 : 32 ∉ p) (hplen : p.length < 4096)
    (hr10 : 10 ∉ rest2) (hfs : env.fs p = some fi) (hread : fi.readable = true)
    (hwrite : fi.writable = true) :
    geptAcc cfg env (str "@sizeof " ++ p ++ 32 :: rest2) =
      .ok (str "    " ++ decimalBytes fi.bytes.length ++ 32 :: rest2 ++ [10]) := by
  have h10 : (10 : Nat) ∉ str "@sizeof " ++ p ++ 32 :: rest2 := by
    intro h
    rcases List.mem_append.mp h with h | h
    · rcases List.mem_append.mp h with h | h
      · revert h; decide
      · exact hp10 h
    · rcases List.mem_cons.mp h with h | h
      · exact absurd h (by decide)
      · exact hr10 h
  have htpl : str "@sizeof " ++ p ++ 32 :: rest2 = 64 :: (str "sizeof " ++ p ++ 32 :: rest2) := by
    rw [show str "@sizeof " = 64 :: str "sizeof " from by decide]
    rfl
  have hltrim : ltrim (str "@sizeof " ++ p ++ 32 :: rest2) =
      str "@sizeof " ++ p ++ 32 :: rest2 := by
    rw [htpl]; exact ltrim_cons _ _ (by decide)
  have hpre : (str "@").isPrefixOf (str "@sizeof " ++ p ++ 32 :: rest2) = true := by
    rw [htpl, show str "@" = [64] from by decide]
    simp [List.isPrefixOf]
  have hchop : lchopUntil 32 (str "@sizeof " ++ p ++ 32 :: rest2) =
      (str "@sizeof", p ++ 32 :: rest2) := by
    rw [show str "@sizeof " = str "@sizeof" ++ [32] from by decide, List.append_assoc,
      List.append_assoc, List.singleton_append]
    exact lchopUntil_append _ (by decide)
  have hstep : stepLine cfg env (str "@sizeof " ++ p ++ 32 :: rest2) [] env.scratch0 =
      .ok ([] ++ str "    " ++ decimalBytes fi.bytes.length ++ [32] ++ rest2 ++ [10],
        [], scratchWritePath env.scratch0 p) := by
    simp only [stepLine, lchopUntil_not_mem h10, hltrim, hpre, if_true, hchop]
    simp only [handleSizeof, lchopUntil_append rest2 hp32]
    rw [if_pos hplen, hfs]
    simp only [hread, hwrite, Bool.and_self, if_true]
  unfold geptAcc
  rw [runLoop_pos cfg env (by rw [htpl]; simp), if_neg (by rw [htpl]; simp), hstep]
  simp [runLoop_nil]

/-- C6, witness of the amended claim at the two-byte file `f`. -/
theorem sizeof_decimal_size_indented_witness :
    geptAcc cfg0 envAB (str "@sizeof " ++ str "f" ++ 32 :: str "x") =
      .ok (str "    " ++ decimalBytes (str "AB").length ++ 32 :: str "x" ++ [10]) :=
  sizeof_decimal_size_indented cfg0 envAB (str "f") (str "x") ⟨str "AB", true, true⟩
    (by decide) (by decide) (by decide) (by decide) (by decide) rfl rfl

/-- C10: the `@sizeof` handler opens its target with `open(path, O_RDWR)`,
so on a file that exists and is readable but on which the process has no
write permission the whole run fails with the open error of the handler,
although only the size of the file is needed. -/
theorem sizeof_opens_read_write (cfg : Config) (env : Env) (p : Bytes)
    (fi : FileInfo) (hp10 : 10 ∉ p) (hp32 : 32 ∉ p) (hplen : p.length < 4096)
    (hfs : env.fs p = some fi) (hread : fi.readable = true)
    (hwrite : fi.writable = false) :
    geptAcc cfg env (str "@sizeof " ++ p) =
      .error (.fileAccess (str "@sizeof " ++ p), []) := by
  have h10 : (10 : Nat) ∉ str "@sizeof " ++ p := by
    intro h
    rcases List.mem_append.mp h with h | h
    · revert h; decide
    · exact hp10 h
  have htpl : str "@sizeof " ++ p = 64 :: (str "sizeof " ++ p) := by
    rw [show str "@sizeof " = 64 :: str "sizeof " from by decide, List.cons_append]
  have hltrim : ltrim (str "@sizeof " ++ p) = str "@sizeof " ++ p := by
    rw [htpl]; exact ltrim_cons _ _ (by decide)
  have hpre : (str "@").isPrefixOf (str "@sizeof " ++ p) = true := by
    rw [htpl, show str "@" = [64] from by decide]
    simp [List.isPrefixOf]
  have hchop : lchopUntil 32 (str "@sizeof " ++ p) = (str "@sizeof", p) := by
    rw [show str "@sizeof " = str "@sizeof" ++ [32] from by decide, List.append_assoc,
      List.singleton_append]
    exact lchopUntil_append p (by decide)
  have hstep : stepLine cfg env (str "@sizeof " ++ p) [] env.scratch0 =
      .error (.fileAccess (str "@sizeof " ++ p), []) := by
    simp only [stepLine, lchopUntil_not_mem h10, hltrim, hpre, if_true, hchop]
    simp only [handleSizeof, lchopUntil_not_mem hp32]
    rw [if_pos hplen, hfs]
    simp only [hread, hwrite, Bool.and_false, Bool.false_eq_true, if_false]
  unfold geptAcc
  rw [runLoop_pos cfg env (by rw [htpl]; simp), if_neg (by rw [htpl]; simp), hstep]

/-- C10, witness at a readable, non-writable file `f`. -/
theorem sizeof_opens_read_write_witness :
    geptAcc cfg0 envRO (str "@sizeof " ++ str "f") =
      .error (.fileAccess (str "@sizeof " ++ str "f"), []) :=
  sizeof_opens_read_write cfg0 envRO (str "f") ⟨str "AB", true, false⟩
    (by decide) (by decide) (by decide) (by decide) rfl rfl

/-- C8: when the collected body of a block directive runs a child that
exits with a non-zero status, the loop aborts with `SubprocessError`
carrying that exit status, and the accumulator carried at the abort point
is exactly the accumulator from before the directive: no byte of the
captured output of that directive is appended. -/
theorem subprocess_nonzero_exit_aborts (cfg : Config) (env : Env) (fuel : Nat)
    (directive rest2 acc : Bytes) (scratch : Scratch)
    (hdir : directive = str "@bash" ∨ directive = str "@perl" ∨ directive = str "@python")
    (hcoll : (collect rest2.length rest2 []).2 ≠ [])
    (hexit : (env.subproc directive (collect rest2.length rest2 []).1).1 ≠ 0) :
    runLoop cfg env (fuel + 1) (directive ++ 10 :: rest2) acc scratch =
      .error (.subprocess (env.subproc directive (collect rest2.length rest2 []).1).1, acc) := by
  have hblock : handleBlock env directive rest2 acc scratch =
      .error (.subprocess (env.subproc directive (collect rest2.length rest2 []).1).1, acc) := by
    simp only [handleBlock]
    rw [if_neg hcoll, if_pos hexit]
  rw [runLoop_pos cfg env (Nat.succ_pos fuel), if_neg (by simp)]
  rcases hdir with rfl | rfl | rfl
  · have hstep : stepLine cfg env (str "@bash" ++ 10 :: rest2) acc scratch =
        .error (.subprocess (env.subproc (str "@bash")
          (collect rest2.length rest2 []).1).1, acc) := by
      simp only [stepLine, lchopUntil_append rest2 (by decide : (10 : Nat) ∉ str "@bash"),
        show ltrim (str "@bash") = str "@bash" from by decide,
        show (str "@").isPrefixOf (str "@bash") = true from by decide, if_true,
        show lchopUntil 32 (str "@bash") = (str "@bash", []) from by decide]
      rw [if_neg (by decide), if_neg (by decide), if_neg (by decide),
        if_pos (Or.inl trivial)]
      exact hblock
    rw [hstep]
  · have hstep : stepLine cfg env (str "@perl" ++ 10 :: rest2) acc scratch =
        .error (.subprocess (env.subproc (str "@perl")
          (collect rest2.length rest2 []).1).1, acc) := by
      simp only [stepLine, lchopUntil_append rest2 (by decide : (10 : Nat) ∉ str "@perl"),
        show ltrim (str "@perl") = str "@perl" from by decide,
        show (str "@").isPrefixOf (str "@perl") = true from by decide, if_true,
        show lchopUntil 32 (str "@perl") = (str "@perl", []) from by decide]
      rw [if_neg (by decide), if_neg (by decide), if_neg (by decide),
        if_pos (Or.inr (Or.inl trivial))]
      exact hblock
    rw [hstep]
  · have hstep : stepLine cfg env (str "@python" ++ 10 :: rest2) acc scratch =
        .error (.subprocess (env.subproc (str "@python")
          (collect rest2.length rest2 []).1).1, acc) := by
      simp only [stepLine, lchopUntil_append rest2 (by decide : (10 : Nat) ∉ str "@python"),
        show ltrim (str "@python") = str "@python" from by decide,
        show (str "@").isPrefixOf (str "@python") = true from by decide, if_true,
        show lchopUntil 32 (str "@python") = (str "@python", []) from by decide]
      rw [if_neg (by decide), if_neg (by decide), if_neg (by decide),
        if_pos (Or.inr (Or.inr trivial))]
      exact hblock
    rw [hstep]

/-- C8, witness: a `@bash` block whose child exits with status 3 aborts the
run with that status and the accumulator still holding only the prior
bytes, none of the printed `oops`. -/
theorem subprocess_nonzero_exit_aborts_witness :
    runLoop cfg0 envFail 1 (str "@bash" ++ 10 :: str "@end\nrest") (str "P") scr0 =
      .error (.subprocess 3, str "P") :=
  subprocess_nonzero_exit_aborts cfg0 envFail 0 (str "@bash") (str "@end\nrest")
    (str "P") scr0 (Or.inl rfl) (by decide) (by decide)

/-- C9, counterexample: the accumulator is not append-only. With a six-byte
embed delimiter, processing `@embed f limit(0)` after the accumulator holds
`ab\n` chops a previously accumulated byte; and even with the default
two-byte delimiter, `@embed f limit(18446744073709551596)` wraps through
the int64 cast to a limit of -20, emits zero rows, and the trailing chop
removes all three previously accumulated bytes. In both runs the old
contents are no prefix of the new contents and the length decreases. -/
theorem accumulator_shrink_cex :
    stepOut cfgBig envOne (str "@embed f limit(0)") (str "ab" ++ [10]) scr0 =
      .ok (str "a" ++ [10], []) ∧
    ¬ (str "ab" ++ [10]) <+: (str "a" ++ [10]) ∧
    (str "a" ++ [10]).length < (str "ab" ++ [10]).length ∧
    stepOut cfg0 envOne (str "@embed f limit(18446744073709551596)")
      (str "ab" ++ [10]) scr0 = .ok ([10], []) ∧
    ¬ (str "ab" ++ [10]) <+: [10] :=
  ⟨rfl, by decide, by decide, rfl, by decide⟩

/-- C9 (amended): provided the embed delimiter is at most four bytes (the
default comma-space included) and the processed line, if it is an `@embed`
with a `limit(` attribute, parses to a value below two to the sixty-third
(so the int64 cast of the limit is nonnegative), every successfully
processed content line or directive only extends the Output Accumulator:
the previous contents remain a prefix of the new contents and the length
never decreases. With a five-byte delimiter, or with a limit whose int64
cast wraps negative (at most -20, giving zero rows), the trailing chop of
`@embed` removes previously accumulated bytes. -/
theorem accumulator_monotone (cfg : Config) (env : Env)
    (hdelim : cfg.embedDelim.length ≤ 4) (input acc : Bytes) (scratch : Scratch)
    (hbenign : stepLimitBenign input = true) (acc2 rest : Bytes)
    (hstep : stepOut cfg env input acc scratch = .ok (acc2, rest)) :
    acc <+: acc2 ∧ acc.length ≤ acc2.length := by
  suffices h : acc <+: acc2 from ⟨h, h.length_le⟩
  unfold stepOut at hstep
  cases hsl : stepLine cfg env input acc scratch with
  | error e => rw [hsl] at hstep; exact absurd hstep (by simp [Except.map])
  | ok t =>
    rw [hsl] at hstep
    obtain ⟨a2, r2, s2⟩ := t
    simp only [Except.map, Except.ok.injEq, Prod.mk.injEq] at hstep
    obtain ⟨rfl, -⟩ := hstep
    simp only [stepLine] at hsl
    split at hsl
    · rename_i hat
      split at hsl
      · exact handleSizeof_prefix hsl
      · split at hsl
        · rename_i hemb
          refine handleEmbed_prefix hdelim ?_ hsl
          simp only [stepLimitBenign, hat, hemb, eq_self_iff_true, if_true] at hbenign
          exact hbenign
        · split at hsl
          · exact handleInclude_prefix hsl
          · split at hsl
            · exact handleBlock_prefix hsl
            · simp only [Except.ok.injEq, Prod.mk.injEq] at hsl
              obtain ⟨rfl, -, -⟩ := hsl
              exact List.prefix_rfl
    · simp only [Except.ok.injEq, Prod.mk.injEq] at hsl
      obtain ⟨rfl, -, -⟩ := hsl
      simp [List.append_assoc]

/-- C2, counterexample: embedding the zero-byte file `f` with `limit(2)`
emits two formatted tokens taken from stale scratch bytes (the path byte
and its NUL terminator, here rendered in decimal as `102` and `0`), not the
zero tokens with one empty row that the claim predicts for a zero-byte
file. -/
theorem embed_zero_byte_file_cex :
    geptAcc cfg0 envC2 (str "@embed f limit(2)") = .ok (str "    102, 0\n") ∧
    str "    102, 0\n" ≠ embedSpecRender cfg0.embedFmt cfg0.embedDelim [] :=
  ⟨rfl, by decide⟩

/-- Bytes at an index below the length do not depend on the default. -/
theorem getD_irrel {l : Bytes} {j : Nat} (h : j < l.length) (d1 d2 : Nat) :
    l.getD j d1 = l.getD j d2 := by
  simp [List.getD_eq_getElem?_getD, List.getElem?_eq_getElem h]

/-- C2 (amended): for a file with at least one byte (and below two to the
sixty-third bytes, so `ftell` reports its size), a limit `N` below two to
the sixty-third (so the int64 cast of the parsed limit is exact), and
`k = min(size(F), N)` within the 128 MiB scratch capacity (beyond it the
unchecked `fread` of the source overruns the static buffer) and not a
multiple of twenty, expanding the single line `@embed F limit(N)` appends
exactly the first k bytes of F rendered as the spec describes: formatted
tokens in file order joined by the configured delimiter in rows of twenty,
four-space indent, no trailing delimiter before the final newline. When k
is 0 or a positive multiple of twenty the trailing chop instead eats
indentation or leaves a delimiter, and a zero-byte file emits N
stale-scratch tokens rather than zero. -/
theorem embed_limit_token_count (cfg : Config) (env : Env) (p : Bytes) (fi : FileInfo)
    (N : Nat) (hp10 : 10 ∉ p) (hp32 : 32 ∉ p) (hplen : p.length < 4096)
    (hfs : env.fs p = some fi) (hread : fi.readable = true)
    (hpos : 0 < fi.bytes.length) (hlen63 : fi.bytes.length < 2 ^ 63)
    (hN : N < 2 ^ 63) (hcap : min fi.bytes.length N ≤ scratchBufferSize)
    (hmod : min fi.bytes.length N % 20 ≠ 0) :
    geptAcc cfg env (str "@embed " ++ p ++ str " limit(" ++ decimalBytes N ++ str ")") =
      .ok (embedSpecRender cfg.embedFmt cfg.embedDelim
        (fi.bytes.take (min fi.bytes.length N))) := by
  have h10 : (10 : Nat) ∉ str "@embed " ++ p ++ str " limit(" ++ decimalBytes N ++ str ")" := by
    intro h
    rcases List.mem_append.mp h with h | h
    · rcases List.mem_append.mp h with h | h
      · rcases List.mem_append.mp h with h | h
        · rcases List.mem_append.mp h with h | h
          · revert h; decide
          · exact hp10 h
        · revert h; decide
      · exact newline_not_mem_decimalBytes N h
    · revert h; decide
  have htpl : str "@embed " ++ p ++ str " limit(" ++ decimalBytes N ++ str ")" =
      64 :: (str "embed " ++ p ++ str " limit(" ++ decimalBytes N ++ str ")") := by
    rw [show str "@embed " = 64 :: str "embed " from by decide]
    rfl
  have hltrim : ltrim (str "@embed " ++ p ++ str " limit(" ++ decimalBytes N ++ str ")") =
      str "@embed " ++ p ++ str " limit(" ++ decimalBytes N ++ str ")" := by
    rw [htpl]; exact ltrim_cons _ _ (by decide)
  have hpre : (str "@").isPrefixOf
      (str "@embed " ++ p ++ str " limit(" ++ decimalBytes N ++ str ")") = true := by
    rw [htpl, show str "@" = [64] from by decide]
    simp [List.isPrefixOf]
  have hchop : lchopUntil 32 (str "@embed " ++ p ++ str " limit(" ++ decimalBytes N ++ str ")") =
      (str "@embed", p ++ (str " limit(" ++ (decimalBytes N ++ str ")"))) := by
    have he : str "@embed " ++ p ++ str " limit(" ++ decimalBytes N ++ str ")" =
        str "@embed" ++ 32 :: (p ++ (str " limit(" ++ (decimalBytes N ++ str ")"))) := by
      rw [show str "@embed " = str "@embed" ++ [32] from by decide]
      simp [List.append_assoc]
    rw [he]
    exact lchopUntil_append _ (by decide)
  have hpathchop : lchopUntil 32 (p ++ (str " limit(" ++ (decimalBytes N ++ str ")"))) =
      (p, str "limit(" ++ (decimalBytes N ++ str ")")) := by
    have he : p ++ (str " limit(" ++ (decimalBytes N ++ str ")")) =
        p ++ 32 :: (str "limit(" ++ (decimalBytes N ++ str ")")) := by
      rw [show str " limit(" = 32 :: str "limit(" from by decide]
      rfl
    rw [he]
    exact lchopUntil_append _ hp32
  have hltrim2 : ltrim (str "limit(" ++ (decimalBytes N ++ str ")")) =
      str "limit(" ++ (decimalBytes N ++ str ")") := by
    rw [show str "limit(" = 108 :: str "imit(" from by decide, List.cons_append]
    exact ltrim_cons _ _ (by decide)
  have hhas : (str "limit(").isPrefixOf (str "limit(" ++ (decimalBytes N ++ str ")")) = true := by
    rw [List.isPrefixOf_iff_prefix]
    exact List.prefix_append _ _
  have hdrop : (str "limit(" ++ (decimalBytes N ++ str ")")).drop 6 =
      decimalBytes N ++ str ")" := by
    rw [show (6 : Nat) = (str "limit(").length from by decide]
    exact List.drop_left _ _
  have hparse : lchopU64 (decimalBytes N ++ str ")") = (N, 41 :: []) := by
    rw [show str ")" = 41 :: [] from by decide]
    exact lchopU64_decimalBytes N []
  have hel : embedLimit true N = (N : Int) := by
    show toInt64 N = (N : Int)
    unfold toInt64
    rw [Nat.mod_eq_of_lt (by omega), if_pos hN]
  have hlen0 : ¬ ((fi.bytes.length : Int) ≤ 0) := by
    simp only [not_le]
    exact_mod_cast hpos
  have hefs : embedFileSize fi.bytes.length (N : Int) =
      ((min fi.bytes.length N : Nat) : Int) := by
    unfold embedFileSize
    dsimp only
    rw [if_pos hlen63, if_neg hlen0]
    split
    · rename_i hlt
      rw [Nat.min_eq_left (by exact_mod_cast hlt.le)]
    · rename_i hge
      rw [Nat.min_eq_right (by exact_mod_cast not_lt.mp hge)]
  have hk64 : (((min fi.bytes.length N : Nat) : Int) % (2 ^ 64 : Int)).toNat =
      min fi.bytes.length N := by
    rw [Int.emod_eq_of_lt (by positivity) (by
      exact_mod_cast lt_of_le_of_lt (Nat.min_le_right fi.bytes.length N)
        (by omega : N < 2 ^ 64))]
    exact Int.toNat_natCast _
  have hnread : min fi.bytes.length (min fi.bytes.length N) = min fi.bytes.length N :=
    min_eq_right (min_le_left _ _)
  have hkle : min fi.bytes.length N ≤ fi.bytes.length := Nat.min_le_left _ _
  have hlentake : (fi.bytes.take (min fi.bytes.length N)).length = min fi.bytes.length N := by
    rw [List.length_take]; omega
  have hbody : embedRowsBody cfg.embedFmt cfg.embedDelim
      (scratchWrite (scratchWritePath env.scratch0 p) (fi.bytes.take (min fi.bytes.length N)))
      ((min fi.bytes.length N : Nat) : Int) =
      embedRowsBody cfg.embedFmt cfg.embedDelim
        (fun j => (fi.bytes.take (min fi.bytes.length N)).getD j 0)
        ((min fi.bytes.length N : Nat) : Int) := by
    apply embedRowsBody_congr
    intro j hj
    have hjk : j < min fi.bytes.length N := by exact_mod_cast hj
    unfold scratchWrite
    exact getD_irrel (by omega) _ _
  have hspec : embedSpecRender cfg.embedFmt cfg.embedDelim
      (fi.bytes.take (min fi.bytes.length N)) =
      rchop (embedRowsBody cfg.embedFmt cfg.embedDelim
        (fun j => (fi.bytes.take (min fi.bytes.length N)).getD j 0)
        ((min fi.bytes.length N : Nat) : Int)) (1 + cfg.embedDelim.length) ++ [10] := by
    have hr : (min fi.bytes.length N + 19) / 20 = min fi.bytes.length N / 20 + 1 := by omega
    have htd : ((((min fi.bytes.length N : Nat) : Int)).tdiv 20 + 1).toNat =
        min fi.bytes.length N / 20 + 1 := rfl
    unfold embedSpecRender embedRowsBody
    rw [hlentake, if_neg (by omega), htd, hr]
  have hstep : stepLine cfg env
      (str "@embed " ++ p ++ str " limit(" ++ decimalBytes N ++ str ")") [] env.scratch0 =
      .ok (embedSpecRender cfg.embedFmt cfg.embedDelim
          (fi.bytes.take (min fi.bytes.length N)), [],
        scratchWrite (scratchWritePath env.scratch0 p)
          (fi.bytes.take (min fi.bytes.length N))) := by
    simp only [stepLine, lchopUntil_not_mem h10, hltrim, hpre, if_true, hchop]
    rw [if_neg (by decide)]
    simp only [handleEmbed, hpathchop]
    rw [if_pos hplen]
    simp only [hltrim2, hhas, hdrop, hparse, if_true, eq_self_iff_true,
      show ([41] : Bytes).isPrefixOf (41 :: []) = true from by decide,
      Bool.not_true, Bool.and_false, Bool.false_eq_true, if_false, hfs, hread]
    rw [hel, hefs, hk64, hnread]
    rw [if_neg (by
      rintro (hh | hh)
      · exact absurd (by exact_mod_cast hh) (not_lt.mpr hcap)
      · exact absurd hh (not_lt.mpr hcap))]
    rw [List.nil_append, hbody, ← hspec]
  unfold geptAcc
  rw [runLoop_pos cfg env (by rw [htpl]; simp) _ _ _, if_neg (by rw [htpl]; simp), hstep]
  simp [runLoop_nil]

/-- C2, witness of the amended claim: a three-byte file with `limit(2)`
renders as the spec rendering of its first two bytes. -/
theorem embed_limit_token_count_witness :
    geptAcc cfg0 envW2 (str "@embed " ++ str "f" ++ str " limit(" ++ decimalBytes 2 ++ str ")") =
      .ok (embedSpecRender cfg0.embedFmt cfg0.embedDelim
        (([5, 6, 7] : Bytes).take (min ([5, 6, 7] : Bytes).length 2))) :=
  embed_limit_token_count cfg0 envW2 (str "f") ⟨[5, 6, 7], true, true⟩ 2
    (by decide) (by decide) (by decide) (by decide) rfl (by decide) (by decide)
    (by decide) (by decide) (by decide)

/-- C9, witness: one content-line step with the default delimiter keeps the
prior accumulator as a prefix. -/
theorem accumulator_monotone_witness :
    (str "P" ++ [10]) <+: [80, 10, 104, 105, 10] ∧
    (str "P" ++ [10]).length ≤ ([80, 10, 104, 105, 10] : Bytes).length :=
  accumulator_monotone cfg0 env0 (by decide) (str "hi") (str "P" ++ [10]) scr0
    (by decide) [80, 10, 104, 105, 10] [] rfl

end Gept
